/-
Verification of the zk-RSA-Setup circuit and its Python orchestration layer
(`src/zk-rsa-verifier.py`).

The Python file emits a circom circuit as a string.  We shallowly embed that
circuit here: every circom template becomes a Lean structure holding its free
signals (`<--`-assigned signals and inputs), a `Constraints` predicate holding
exactly the `===`/`<==` equalities the template emits, and output signals that
are `<==`-defined become Lean functions of the witness record.  The field is
an arbitrary `Field F`; the fact that the concrete proving field is a large
prime field is captured by the hypothesis `CharGE F M` (naturals up to `M`
cast injectively), which holds in the real field for every bound `M` used
below.  Witness-computation rules (`<--`) are embedded as the `honest`
functions, computed over the integers exactly as circom does for the inputs
in range.

The Python-side functions `_is_prime`, `generate_proof`'s input validation and
`find_16bit_primes` are embedded directly (`is_prime`, `validateInputs`,
`find16bitAux`); the float expression `int(n**0.5)` is rendered as `Nat.sqrt`,
which agrees with it on every input below `2^16` (the double sqrt is correctly
rounded, so the truncations only could differ at perfect squares, where both
are exact).
-/

import Mathlib

/-- `CharGE F M`: the natural numbers up to `M` inject into `F` through the
canonical cast.  This is the abstract form of "the field modulus exceeds `M`";
it holds in any prime field of characteristic `> M` and in `ℚ`. -/
def CharGE (F : Type) [AddGroupWithOne F] (M : ℕ) : Prop :=
  ∀ m : ℕ, m ≤ M → (m : F) = 0 → m = 0

theorem CharGE.mono {F : Type} [AddGroupWithOne F] {M M' : ℕ}
    (h : CharGE F M) (hle : M' ≤ M) : CharGE F M' :=
  fun m hm h0 => h m (le_trans hm hle) h0

theorem CharGE.castInj {F : Type} [AddGroupWithOne F] {M a b : ℕ}
    (h : CharGE F M) (ha : a ≤ M) (hb : b ≤ M) (hab : (a : F) = (b : F)) :
    a = b := by
  rcases le_total a b with hle | hle
  · have h0 : ((b - a : ℕ) : F) = 0 := by
      rw [Nat.cast_sub hle, hab, sub_self]
    have := h (b - a) (le_trans (Nat.sub_le _ _) hb) h0
    omega
  · have h0 : ((a - b : ℕ) : F) = 0 := by
      rw [Nat.cast_sub hle, hab, sub_self]
    have := h (a - b) (le_trans (Nat.sub_le _ _) ha) h0
    omega

theorem charGE_rat (M : ℕ) : CharGE ℚ M :=
  fun _ _ h0 => Nat.cast_eq_zero.mp h0

/-- The fixed 54-entry prime table of `SimplePrimalityTest`
(`var primes[54] = [2,3,...,251]` in the circom source). -/
def smallPrimes : List ℕ :=
  [2, 3, 5, 7, 11, 13, 17, 19, 23, 29, 31, 37, 41, 43, 47, 53, 59, 61, 67,
   71, 73, 79, 83, 89, 97, 101, 103, 107, 109, 113, 127, 131, 137, 139, 149,
   151, 157, 163, 167, 173, 179, 181, 191, 193, 197, 199, 211, 223, 227, 229,
   233, 239, 241, 251]

theorem smallPrimes_length : smallPrimes.length = 54 := rfl

theorem smallPrimes_getD_mem (i : ℕ) (h : i < 54) :
    smallPrimes.getD i 0 ∈ smallPrimes := by
  have hlen : i < smallPrimes.length := by rw [smallPrimes_length]; omega
  rw [List.getD_eq_getElem smallPrimes 0 hlen]
  exact List.getElem_mem hlen

theorem smallPrimes_pos : ∀ ρ ∈ smallPrimes, 0 < ρ := by decide

theorem smallPrimes_le : ∀ ρ ∈ smallPrimes, ρ ≤ 251 := by decide

theorem smallPrimes_two_or_odd : ∀ ρ ∈ smallPrimes, ρ = 2 ∨ ρ % 2 = 1 := by
  decide

set_option maxRecDepth 4096 in
/-- Every integer in `[2, 255]` has a divisor in the prime table: the table
holds all primes up to `251` and there is no prime strictly between `251`
and `256`. -/
theorem smallPrimes_cover : ∀ k < 256, 2 ≤ k → ∃ ρ ∈ smallPrimes, ρ ∣ k := by
  decide

/-! ### Bit decomposition (`Num2Bits` / `Bits2Num` templates) -/

/-- Free signals of a `Num2Bits(n)` instance: the input and the `<--`-assigned
bit signals (only indices `< n` are constrained). -/
structure Num2BitsW (F : Type) where
  inp : F
  out : ℕ → F

/-- The linear reconstruction `lc = Σ in[i]·2^i` computed by the `Bits2Num(n)`
template body. -/
def Bits2Num (F : Type) [Field F] (n : ℕ) (bits : ℕ → F) : F :=
  ∑ i ∈ Finset.range n, bits i * 2 ^ i

/-- Constraints emitted by `Num2Bits(n)`: each bit satisfies
`out[i]*(out[i]-1) === 0`, and the embedded `Bits2Num` sum equals the input
(`n2b.out === in`). -/
def Num2Bits.Constraints (F : Type) [Field F] (n : ℕ) (w : Num2BitsW F) : Prop :=
  (∀ i < n, w.out i * (w.out i - 1) = 0) ∧ Bits2Num F n w.out = w.inp

/-- Witness computation of `Num2Bits`: `out[i] <-- (in >> i) & 1`, applied to
the integer value `x` of the input signal. -/
def Num2Bits.honest (F : Type) [Field F] (x : ℕ) : Num2BitsW F :=
  { inp := (x : F), out := fun i => (((x >>> i) &&& 1 : ℕ) : F) }

theorem nat_bit_eq (x i : ℕ) : (x >>> i) &&& 1 = x / 2 ^ i % 2 := by
  rw [Nat.shiftRight_eq_div_pow, Nat.and_one_is_mod]

theorem nat_bits_sum (x n : ℕ) :
    ∑ i ∈ Finset.range n, ((x >>> i) &&& 1) * 2 ^ i = x % 2 ^ n := by
  induction n with
  | zero => simp [Nat.mod_one]
  | succ n ih =>
    rw [Finset.sum_range_succ, ih, nat_bit_eq, Nat.mod_pow_succ]
    ring

theorem honest_bits_sum (F : Type) [Field F] (x n : ℕ) :
    Bits2Num F n (Num2Bits.honest F x).out = ((x % 2 ^ n : ℕ) : F) := by
  rw [Bits2Num, ← nat_bits_sum x n]
  push_cast
  rfl

theorem honest_bit_boolean (F : Type) [Field F] (x i : ℕ) :
    (Num2Bits.honest F x).out i = 0 ∨ (Num2Bits.honest F x).out i = 1 := by
  simp only [Num2Bits.honest, nat_bit_eq]
  rcases Nat.mod_two_eq_zero_or_one (x / 2 ^ i) with h | h <;> rw [h] <;> simp

/-- The honest `Num2Bits` witness satisfies all constraints whenever the input
integer fits in `n` bits. -/
theorem num2bits_honest_satisfies (F : Type) [Field F] (n x : ℕ)
    (hx : x < 2 ^ n) :
    Num2Bits.Constraints F n (Num2Bits.honest F x) := by
  constructor
  · intro i _
    rcases honest_bit_boolean F x i with h | h <;> rw [h] <;> ring
  · rw [honest_bits_sum, Nat.mod_eq_of_lt hx]
    rfl

/-- A weighted boolean sum of `n` bits is the cast of a natural below `2^n`. -/
theorem boolean_sum_lt (F : Type) [Field F] (n : ℕ) (bits : ℕ → F)
    (hb : ∀ i < n, bits i = 0 ∨ bits i = 1) :
    ∃ t : ℕ, t < 2 ^ n ∧ (t : F) = ∑ i ∈ Finset.range n, bits i * 2 ^ i := by
  induction n with
  | zero => exact ⟨0, by norm_num, by simp⟩
  | succ n ih =>
    obtain ⟨t, ht, hsum⟩ := ih (fun i hi => hb i (by omega))
    rcases hb n (by omega) with h | h
    · refine ⟨t, ?_, ?_⟩
      · calc t < 2 ^ n := ht
          _ ≤ 2 ^ (n + 1) := Nat.pow_le_pow_right (by norm_num) (by omega)
      · rw [Finset.sum_range_succ, h, ← hsum]; ring
    · refine ⟨t + 2 ^ n, ?_, ?_⟩
      · have : 2 ^ (n + 1) = 2 ^ n + 2 ^ n := by ring
        omega
      · rw [Finset.sum_range_succ, h, ← hsum]
        push_cast
        ring

/-! ### Zero test (`IsZero` template) -/

/-- Free signals of an `IsZero` instance: the input and the `<--`-assigned
helper `inv`.  The output is `<==`-defined, see `IsZero.out`. -/
structure IsZeroW (F : Type) where
  inp : F
  inv : F

/-- `out <== -in * inv + 1`. -/
def IsZero.out (F : Type) [Field F] (w : IsZeroW F) : F :=
  -w.inp * w.inv + 1

/-- The one remaining constraint of `IsZero`: `in * out === 0`. -/
def IsZero.Constraints (F : Type) [Field F] (w : IsZeroW F) : Prop :=
  w.inp * IsZero.out F w = 0

/-- Witness computation of `IsZero`: `inv <-- in != 0 ? 1/in : 0`. -/
def IsZero.honest (F : Type) [Field F] [DecidableEq F] (x : F) : IsZeroW F :=
  { inp := x, inv := if x ≠ 0 then x⁻¹ else 0 }

theorem isZero_honest_out (F : Type) [Field F] [DecidableEq F] (x : F) :
    IsZero.out F (IsZero.honest F x) = if x = 0 then 1 else 0 := by
  by_cases hx : x = 0
  · simp [IsZero.out, IsZero.honest, hx]
  · simp only [IsZero.out, IsZero.honest, ne_eq, hx, not_false_eq_true,
      if_true, if_false]
    rw [neg_mul, mul_inv_cancel₀ hx]
    ring

theorem isZero_honest_satisfies (F : Type) [Field F] [DecidableEq F] (x : F) :
    IsZero.Constraints F (IsZero.honest F x) := by
  rw [IsZero.Constraints]
  by_cases hx : x = 0
  · simp [IsZero.honest, hx]
  · rw [isZero_honest_out, if_neg hx, mul_zero]

/-! ### Comparators (`LessThan`, `GreaterEqThan`, `LessEqThan` templates) -/

/-- Free signals of a `LessThan(n)` instance: the two inputs and the internal
`Num2Bits(n+1)` component. -/
structure LessThanW (F : Type) where
  a : F
  b : F
  n2b : Num2BitsW F

/-- Constraints of `LessThan(n)`: the component wiring
`n2b.in <== in[0] + (1<<n) - in[1]` plus the `Num2Bits(n+1)` constraints. -/
def LessThan.Constraints (F : Type) [Field F] (n : ℕ) (w : LessThanW F) : Prop :=
  w.n2b.inp = w.a + 2 ^ n - w.b ∧ Num2Bits.Constraints F (n + 1) w.n2b

/-- `out <== 1 - n2b.out[n]`. -/
def LessThan.out (F : Type) [Field F] (n : ℕ) (w : LessThanW F) : F :=
  1 - w.n2b.out n

/-- Honest `LessThan(n)` witness on integer inputs `a`, `b` (both below `2^n`,
so that the internal signal `in[0] + 2^n - in[1]` is the nonnegative integer
`a + 2^n - b`). -/
def LessThan.honest (F : Type) [Field F] (n a b : ℕ) : LessThanW F :=
  { a := (a : F), b := (b : F), n2b := Num2Bits.honest F (a + 2 ^ n - b) }

theorem lessThan_honest_satisfies (F : Type) [Field F] (n a b : ℕ)
    (ha : a < 2 ^ n) (hb : b < 2 ^ n) :
    LessThan.Constraints F n (LessThan.honest F n a b) := by
  constructor
  · show ((a + 2 ^ n - b : ℕ) : F) = (a : F) + 2 ^ n - (b : F)
    rw [Nat.cast_sub (by omega)]
    push_cast
    ring
  · exact num2bits_honest_satisfies F (n + 1) (a + 2 ^ n - b)
      (by rw [pow_succ]; omega)

theorem lessThan_honest_out (F : Type) [Field F] (n a b : ℕ)
    (ha : a < 2 ^ n) (hb : b < 2 ^ n) :
    LessThan.out F n (LessThan.honest F n a b) = if a < b then 1 else 0 := by
  have hp : 0 < 2 ^ n := Nat.pos_pow_of_pos n (by norm_num)
  rw [LessThan.out, LessThan.honest]
  show 1 - (((a + 2 ^ n - b) >>> n &&& 1 : ℕ) : F) = _
  rw [nat_bit_eq]
  by_cases hab : a < b
  · have hlt : a + 2 ^ n - b < 2 ^ n := by omega
    rw [Nat.div_eq_of_lt hlt]
    simp [hab]
  · have hdiv : (a + 2 ^ n - b) / 2 ^ n = 1 := by
      apply Nat.div_eq_of_lt_le <;> omega
    rw [hdiv]
    simp [hab]

/-- `GreaterEqThan(n)` wires `lt.in[0] <== in[0]`, `lt.in[1] <== in[1]` into a
`LessThan(n)` component; its inputs being `x` and `y` is expressed by the two
wiring equations. -/
def GreaterEqThan.Constraints (F : Type) [Field F] (n : ℕ) (w : LessThanW F)
    (x y : F) : Prop :=
  w.a = x ∧ w.b = y ∧ LessThan.Constraints F n w

/-- `GreaterEqThan`: `out <== 1 - lt.out`. -/
def GreaterEqThan.out (F : Type) [Field F] (n : ℕ) (w : LessThanW F) : F :=
  1 - LessThan.out F n w

/-- `LessEqThan(n)` wires `lt.in[0] <== in[1]`, `lt.in[1] <== in[0]` (the
arguments swapped) into a `LessThan(n)` component. -/
def LessEqThan.Constraints (F : Type) [Field F] (n : ℕ) (w : LessThanW F)
    (x y : F) : Prop :=
  w.a = y ∧ w.b = x ∧ LessThan.Constraints F n w

/-- `LessEqThan`: `out <== 1 - lt.out`. -/
def LessEqThan.out (F : Type) [Field F] (n : ℕ) (w : LessThanW F) : F :=
  1 - LessThan.out F n w

/-! ### Equality test (`IsEqual` template) -/

/-- Free signals of an `IsEqual` instance: the two inputs and the internal
`IsZero` component. -/
structure IsEqualW (F : Type) where
  a : F
  b : F
  isz : IsZeroW F

/-- Constraints of `IsEqual`: wiring `isz.in <== in[0] - in[1]` plus the
`IsZero` constraint. -/
def IsEqual.Constraints (F : Type) [Field F] (w : IsEqualW F) : Prop :=
  w.isz.inp = w.a - w.b ∧ IsZero.Constraints F w.isz

/-- `out <== isz.out`. -/
def IsEqual.out (F : Type) [Field F] (w : IsEqualW F) : F :=
  IsZero.out F w.isz

/-- Honest `IsEqual` witness on integer inputs. -/
def IsEqual.honest (F : Type) [Field F] [DecidableEq F] (a b : ℕ) : IsEqualW F :=
  { a := (a : F), b := (b : F), isz := IsZero.honest F ((a : F) - (b : F)) }

theorem isEqual_honest_satisfies (F : Type) [Field F] [DecidableEq F]
    (a b : ℕ) : IsEqual.Constraints F (IsEqual.honest F a b) :=
  ⟨rfl, isZero_honest_satisfies F _⟩

theorem isEqual_honest_out (F : Type) [Field F] [DecidableEq F] (M a b : ℕ)
    (hchar : CharGE F M) (ha : a ≤ M) (hb : b ≤ M) :
    IsEqual.out F (IsEqual.honest F a b) = if a = b then 1 else 0 := by
  rw [IsEqual.out, IsEqual.honest]
  show IsZero.out F (IsZero.honest F ((a : F) - (b : F))) = _
  rw [isZero_honest_out]
  by_cases hab : a = b
  · rw [if_pos (by rw [hab, sub_self]), if_pos hab]
  · rw [if_neg, if_neg hab]
    intro h0
    exact hab (hchar.castInj ha hb (sub_eq_zero.mp h0))

/-! ### Trial division (`ModulusCheck` template)

The template takes a bit-width parameter `ModulusCheck(n)` (instantiated at
`20`), but its body never uses `n`: no range constraint is placed on
`quotient` or `remainder`.  The embedding therefore has no width parameter. -/

/-- Free signals of a `ModulusCheck` instance: the two inputs, the
`<--`-assigned `quotient` and `remainder`, and the internal `IsZero`
component. -/
structure ModulusCheckW (F : Type) where
  value : F
  modulus : F
  quotient : F
  remainder : F
  isZero : IsZeroW F

/-- Constraints of `ModulusCheck`: the linear division relation
`value === quotient * modulus + remainder`, the wiring
`isZero.in <== remainder`, and the `IsZero` constraint.  Note that nothing
bounds `remainder`. -/
def ModulusCheck.Constraints (F : Type) [Field F] (w : ModulusCheckW F) : Prop :=
  w.value = w.quotient * w.modulus + w.remainder ∧
  w.isZero.inp = w.remainder ∧
  IsZero.Constraints F w.isZero

/-- `isNotDivisible <== 1 - isZero.out`. -/
def ModulusCheck.isNotDivisible (F : Type) [Field F] (w : ModulusCheckW F) : F :=
  1 - IsZero.out F w.isZero

/-- Witness computation of `ModulusCheck` on an integer input `v` and a
constant modulus `m`: `quotient <-- value \ modulus`,
`remainder <-- value % modulus`, evaluated over the integers. -/
def ModulusCheck.honest (F : Type) [Field F] [DecidableEq F] (v m : ℕ) :
    ModulusCheckW F :=
  { value := (v : F), modulus := (m : F), quotient := ((v / m : ℕ) : F),
    remainder := ((v % m : ℕ) : F),
    isZero := IsZero.honest F ((v % m : ℕ) : F) }

theorem modulusCheck_honest_satisfies (F : Type) [Field F] [DecidableEq F]
    (v m : ℕ) : ModulusCheck.Constraints F (ModulusCheck.honest F v m) := by
  refine ⟨?_, rfl, isZero_honest_satisfies F _⟩
  show (v : F) = ((v / m : ℕ) : F) * ((m : ℕ) : F) + ((v % m : ℕ) : F)
  have h : v / m * m + v % m = v := Nat.div_add_mod' v m
  calc (v : F) = ((v / m * m + v % m : ℕ) : F) := by rw [h]
    _ = _ := by push_cast; ring

theorem ModulusCheck.honest_isNotDivisible (F : Type) [Field F] [DecidableEq F]
    (v m : ℕ) (hchar : CharGE F 251) (hm : 0 < m) (hm251 : m ≤ 251) :
    ModulusCheck.isNotDivisible F (ModulusCheck.honest F v m)
      = if m ∣ v then 0 else 1 := by
  rw [ModulusCheck.isNotDivisible, ModulusCheck.honest]
  show 1 - IsZero.out F (IsZero.honest F ((v % m : ℕ) : F)) = _
  rw [isZero_honest_out]
  have hcast : ((v % m : ℕ) : F) = 0 ↔ v % m = 0 := by
    constructor
    · intro h0
      exact hchar (v % m) (by have := Nat.mod_lt v hm; omega) h0
    · intro h0
      rw [h0, Nat.cast_zero]
  by_cases hdvd : m ∣ v
  · rw [if_pos (hcast.mpr ((Nat.dvd_iff_mod_eq_zero).mp hdvd)), if_pos hdvd]
    ring
  · rw [if_neg, if_neg hdvd]
    · ring
    · intro h0
      exact hdvd ((Nat.dvd_iff_mod_eq_zero).mpr (hcast.mp h0))

/-! ### Primality test (`SimplePrimalityTest` template) -/

/-- Free signals of a `SimplePrimalityTest` instance: the input and the 54
`ModulusCheck(20)` components (only indices `< 54` are constrained). -/
structure SimplePrimalityTestW (F : Type) where
  n : F
  modChecks : ℕ → ModulusCheckW F

/-- Constraints of `SimplePrimalityTest`: for each of the 54 entries of the
prime table, the wiring `modChecks[i].value <== n`,
`modChecks[i].modulus <== primes[i]`, plus the `ModulusCheck` constraints. -/
def SimplePrimalityTest.Constraints (F : Type) [Field F]
    (w : SimplePrimalityTestW F) : Prop :=
  ∀ i < 54,
    (w.modChecks i).value = w.n ∧
    (w.modChecks i).modulus = ((smallPrimes.getD i 0 : ℕ) : F) ∧
    ModulusCheck.Constraints F (w.modChecks i)

/-- `checks[i] <== modChecks[i].isNotDivisible`. -/
def SimplePrimalityTest.checks (F : Type) [Field F]
    (w : SimplePrimalityTestW F) (i : ℕ) : F :=
  ModulusCheck.isNotDivisible F (w.modChecks i)

/-- The sequential conjunction `accumulated[0] <== checks[0]`,
`accumulated[i] <== accumulated[i-1] * checks[i]`. -/
def SimplePrimalityTest.accumulated (F : Type) [Field F]
    (w : SimplePrimalityTestW F) : ℕ → F
  | 0 => SimplePrimalityTest.checks F w 0
  | i + 1 =>
      SimplePrimalityTest.accumulated F w i *
        SimplePrimalityTest.checks F w (i + 1)

/-- `isPrime <== accumulated[53]`. -/
def SimplePrimalityTest.isPrime (F : Type) [Field F]
    (w : SimplePrimalityTestW F) : F :=
  SimplePrimalityTest.accumulated F w 53

/-- Witness computation of `SimplePrimalityTest` on an integer input `v`:
one honest `ModulusCheck` per table entry. -/
def SimplePrimalityTest.honest (F : Type) [Field F] [DecidableEq F] (v : ℕ) :
    SimplePrimalityTestW F :=
  { n := (v : F),
    modChecks := fun i => ModulusCheck.honest F v (smallPrimes.getD i 0) }

theorem primalityTest_honest_satisfies (F : Type) [Field F]
    [DecidableEq F] (v : ℕ) :
    SimplePrimalityTest.Constraints F (SimplePrimalityTest.honest F v) :=
  fun _ _ => ⟨rfl, rfl, modulusCheck_honest_satisfies F v _⟩

theorem SimplePrimalityTest.honest_accumulated (F : Type) [Field F]
    [DecidableEq F] (v : ℕ) (hchar : CharGE F 251) :
    ∀ k ≤ 53,
      SimplePrimalityTest.accumulated F (SimplePrimalityTest.honest F v) k
        = if (∀ i ≤ k, ¬ smallPrimes.getD i 0 ∣ v) then 1 else 0 := by
  have hcheck : ∀ i < 54,
      SimplePrimalityTest.checks F (SimplePrimalityTest.honest F v) i
        = if smallPrimes.getD i 0 ∣ v then 0 else 1 := by
    intro i hi
    have hmem : smallPrimes.getD i 0 ∈ smallPrimes :=
      smallPrimes_getD_mem i (by omega)
    exact ModulusCheck.honest_isNotDivisible F v _ hchar
      (smallPrimes_pos _ hmem) (smallPrimes_le _ hmem)
  intro k
  induction k with
  | zero =>
    intro _
    rw [SimplePrimalityTest.accumulated, hcheck 0 (by omega)]
    by_cases h : smallPrimes.getD 0 0 ∣ v
    · rw [if_pos h, if_neg]
      push_neg
      exact ⟨0, le_refl 0, h⟩
    · rw [if_neg h, if_pos]
      intro i hi
      rw [Nat.le_zero.mp hi]
      exact h
  | succ k ih =>
    intro hk
    rw [SimplePrimalityTest.accumulated, ih (by omega), hcheck (k + 1) (by omega)]
    by_cases hall : ∀ i ≤ k, ¬ smallPrimes.getD i 0 ∣ v
    · rw [if_pos hall]
      by_cases hnew : smallPrimes.getD (k + 1) 0 ∣ v
      · rw [if_pos hnew, if_neg, mul_zero]
        push_neg
        exact ⟨k + 1, le_refl _, hnew⟩
      · rw [if_neg hnew, if_pos, mul_one]
        intro i hi
        rcases Nat.lt_or_ge i (k + 1) with h | h
        · exact hall i (by omega)
        · have : i = k + 1 := by omega
          rw [this]
          exact hnew
    · rw [if_neg hall, zero_mul, if_neg]
      intro hall'
      exact hall (fun i hi => hall' i (by omega))

/-- On the honest witness, `isPrime` is `1` exactly when no prime of the table
divides the input. -/
theorem SimplePrimalityTest.honest_isPrime (F : Type) [Field F] [DecidableEq F]
    (v : ℕ) (hchar : CharGE F 251) :
    SimplePrimalityTest.isPrime F (SimplePrimalityTest.honest F v)
      = if (∀ ρ ∈ smallPrimes, ¬ ρ ∣ v) then 1 else 0 := by
  rw [SimplePrimalityTest.isPrime,
    SimplePrimalityTest.honest_accumulated F v hchar 53 (le_refl 53)]
  congr 1
  simp only [eq_iff_iff]
  constructor
  · intro h ρ hρ
    obtain ⟨i, hi, hget⟩ := List.mem_iff_getElem.mp hρ
    rw [smallPrimes_length] at hi
    have := h i (by omega)
    rwa [List.getD_eq_getElem smallPrimes 0 (by rw [smallPrimes_length]; omega),
      hget] at this
  · intro h i hi
    exact h _ (smallPrimes_getD_mem i (by omega))

/-! ### Top-level circuit (`RSASetupVerifier` template)

The Python class interpolates `self.min_value` and `self.max_value` into the
circuit string; with the default `bit_length = 16` these are `32768` and
`65535`.  The comparator widths are the literal `16` in the circuit text. -/

/-- `bit_length = 16` (the Python default, the only value the demo uses). -/
def bitLength : ℕ := 16

/-- `self.min_value = 2**(bit_length - 1)`. -/
def min_value : ℕ := 2 ^ (bitLength - 1)

/-- `self.max_value = 2**bit_length - 1`. -/
def max_value : ℕ := 2 ^ bitLength - 1

/-- Free signals of the `RSASetupVerifier` circuit: the private inputs `p`,
`q` and the internal components.  All other signals (`n`, `validP`, `validQ`,
`different`, `valid`) are `<==`-defined. -/
structure RSASetupVerifierW (F : Type) where
  p : F
  q : F
  geP : LessThanW F
  leP : LessThanW F
  geQ : LessThanW F
  leQ : LessThanW F
  eq : IsEqualW F
  primeP : SimplePrimalityTestW F
  primeQ : SimplePrimalityTestW F

/-- `n <== p * q`: the unique public output. -/
def RSASetupVerifier.n (F : Type) [Field F] (w : RSASetupVerifierW F) : F :=
  w.p * w.q

/-- `validP <== geP.out * leP.out`. -/
def RSASetupVerifier.validP (F : Type) [Field F] (w : RSASetupVerifierW F) : F :=
  GreaterEqThan.out F 16 w.geP * LessEqThan.out F 16 w.leP

/-- `validQ <== geQ.out * leQ.out`. -/
def RSASetupVerifier.validQ (F : Type) [Field F] (w : RSASetupVerifierW F) : F :=
  GreaterEqThan.out F 16 w.geQ * LessEqThan.out F 16 w.leQ

/-- `different <== 1 - eq.out`. -/
def RSASetupVerifier.different (F : Type) [Field F]
    (w : RSASetupVerifierW F) : F :=
  1 - IsEqual.out F w.eq

/-- `valid <== validP * validQ * different * primeP.isPrime * primeQ.isPrime`. -/
def RSASetupVerifier.valid (F : Type) [Field F] (w : RSASetupVerifierW F) : F :=
  RSASetupVerifier.validP F w * RSASetupVerifier.validQ F w *
    RSASetupVerifier.different F w *
    SimplePrimalityTest.isPrime F w.primeP *
    SimplePrimalityTest.isPrime F w.primeQ

/-- The full constraint set of `RSASetupVerifier`: the four comparator
components wired to `p`/`q` against `min_value`/`max_value`, the `IsEqual`
component on `(p, q)`, the two `SimplePrimalityTest` components, and the
final assertion `valid === 1`. -/
def RSASetupVerifier.Constraints (F : Type) [Field F]
    (w : RSASetupVerifierW F) : Prop :=
  GreaterEqThan.Constraints F 16 w.geP w.p ((min_value : ℕ) : F) ∧
  LessEqThan.Constraints F 16 w.leP w.p ((max_value : ℕ) : F) ∧
  GreaterEqThan.Constraints F 16 w.geQ w.q ((min_value : ℕ) : F) ∧
  LessEqThan.Constraints F 16 w.leQ w.q ((max_value : ℕ) : F) ∧
  (w.eq.a = w.p ∧ w.eq.b = w.q ∧ IsEqual.Constraints F w.eq) ∧
  (w.primeP.n = w.p ∧ SimplePrimalityTest.Constraints F w.primeP) ∧
  (w.primeQ.n = w.q ∧ SimplePrimalityTest.Constraints F w.primeQ) ∧
  RSASetupVerifier.valid F w = 1

/-- The full honest witness of the circuit, assembled from the gadget
witness-computation rules on integer inputs `p`, `q`. -/
def RSASetupVerifier.honest (F : Type) [Field F] [DecidableEq F] (p q : ℕ) :
    RSASetupVerifierW F :=
  { p := (p : F), q := (q : F),
    geP := LessThan.honest F 16 p min_value,
    leP := LessThan.honest F 16 max_value p,
    geQ := LessThan.honest F 16 q min_value,
    leQ := LessThan.honest F 16 max_value q,
    eq := IsEqual.honest F p q,
    primeP := SimplePrimalityTest.honest F p,
    primeQ := SimplePrimalityTest.honest F q }

/-- Central satisfiability lemma: for in-range, table-coprime, distinct
integer inputs the honest witness satisfies every constraint of
`RSASetupVerifier`, and the public output is the cast of the integer
product. -/
theorem rsa_honest_satisfies (F : Type) [Field F] [DecidableEq F]
    (hchar : CharGE F (2 ^ 34)) (p q : ℕ)
    (hp1 : min_value ≤ p) (hp2 : p ≤ max_value)
    (hq1 : min_value ≤ q) (hq2 : q ≤ max_value)
    (hpt : ∀ ρ ∈ smallPrimes, ¬ ρ ∣ p) (hqt : ∀ ρ ∈ smallPrimes, ¬ ρ ∣ q)
    (hne : p ≠ q) :
    RSASetupVerifier.Constraints F (RSASetupVerifier.honest F p q) ∧
    RSASetupVerifier.n F (RSASetupVerifier.honest F p q) = ((p * q : ℕ) : F) := by
  have hmin : min_value = 32768 := rfl
  have hmax : max_value = 65535 := rfl
  rw [hmin] at hp1 hq1
  rw [hmax] at hp2 hq2
  have hp16 : p < 2 ^ 16 := by omega
  have hq16 : q < 2 ^ 16 := by omega
  have hmin16 : min_value < 2 ^ 16 := by rw [hmin]; norm_num
  have hmax16 : max_value < 2 ^ 16 := by rw [hmax]; norm_num
  have hchar251 : CharGE F 251 := hchar.mono (by norm_num)
  constructor
  · refine ⟨⟨rfl, rfl, lessThan_honest_satisfies F 16 p min_value hp16 hmin16⟩,
      ⟨rfl, rfl, lessThan_honest_satisfies F 16 max_value p hmax16 hp16⟩,
      ⟨rfl, rfl, lessThan_honest_satisfies F 16 q min_value hq16 hmin16⟩,
      ⟨rfl, rfl, lessThan_honest_satisfies F 16 max_value q hmax16 hq16⟩,
      ⟨rfl, rfl, isEqual_honest_satisfies F p q⟩,
      ⟨rfl, primalityTest_honest_satisfies F p⟩,
      ⟨rfl, primalityTest_honest_satisfies F q⟩, ?_⟩
    have hgeP : GreaterEqThan.out F 16 (LessThan.honest F 16 p min_value) = 1 := by
      rw [GreaterEqThan.out, lessThan_honest_out F 16 p min_value hp16 hmin16,
        if_neg (by omega)]
      ring
    have hleP : LessEqThan.out F 16 (LessThan.honest F 16 max_value p) = 1 := by
      rw [LessEqThan.out, lessThan_honest_out F 16 max_value p hmax16 hp16,
        if_neg (by omega)]
      ring
    have hgeQ : GreaterEqThan.out F 16 (LessThan.honest F 16 q min_value) = 1 := by
      rw [GreaterEqThan.out, lessThan_honest_out F 16 q min_value hq16 hmin16,
        if_neg (by omega)]
      ring
    have hleQ : LessEqThan.out F 16 (LessThan.honest F 16 max_value q) = 1 := by
      rw [LessEqThan.out, lessThan_honest_out F 16 max_value q hmax16 hq16,
        if_neg (by omega)]
      ring
    have hdiff : RSASetupVerifier.different F (RSASetupVerifier.honest F p q)
        = 1 := by
      rw [RSASetupVerifier.different]
      show 1 - IsEqual.out F (IsEqual.honest F p q) = 1
      rw [isEqual_honest_out F (2 ^ 34) p q hchar (by omega) (by omega),
        if_neg hne]
      ring
    have hprP : SimplePrimalityTest.isPrime F (SimplePrimalityTest.honest F p)
        = 1 := by
      rw [SimplePrimalityTest.honest_isPrime F p hchar251, if_pos hpt]
    have hprQ : SimplePrimalityTest.isPrime F (SimplePrimalityTest.honest F q)
        = 1 := by
      rw [SimplePrimalityTest.honest_isPrime F q hchar251, if_pos hqt]
    rw [RSASetupVerifier.valid, RSASetupVerifier.validP,
      RSASetupVerifier.validQ]
    show GreaterEqThan.out F 16 (LessThan.honest F 16 p min_value) *
        LessEqThan.out F 16 (LessThan.honest F 16 max_value p) *
        (GreaterEqThan.out F 16 (LessThan.honest F 16 q min_value) *
          LessEqThan.out F 16 (LessThan.honest F 16 max_value q)) *
        RSASetupVerifier.different F (RSASetupVerifier.honest F p q) *
        SimplePrimalityTest.isPrime F (SimplePrimalityTest.honest F p) *
        SimplePrimalityTest.isPrime F (SimplePrimalityTest.honest F q) = 1
    rw [hgeP, hleP, hgeQ, hleQ, hdiff, hprP, hprQ]
    ring
  · show (p : F) * (q : F) = ((p * q : ℕ) : F)
    push_cast
    ring

/-! ### Range soundness of the comparator pair -/

theorem boolean_of_constraint {F : Type} [Field F] {b : F}
    (h : b * (b - 1) = 0) : b = 0 ∨ b = 1 := by
  rcases mul_eq_zero.mp h with h0 | h0
  · exact Or.inl h0
  · exact Or.inr (sub_eq_zero.mp h0)

/-- A width-17 `Num2Bits` whose constraints hold and whose top bit is `1`
forces its input signal to be `t + 2^16` for some integer `t < 2^16`. -/
theorem top_bit_input (F : Type) [Field F] (w : Num2BitsW F)
    (hc : Num2Bits.Constraints F 17 w) (htop : w.out 16 = 1) :
    ∃ t : ℕ, t < 2 ^ 16 ∧ w.inp = ((t + 2 ^ 16 : ℕ) : F) := by
  obtain ⟨hbool, hsum⟩ := hc
  obtain ⟨t, ht, hlow⟩ := boolean_sum_lt F 16 w.out
    (fun i hi => boolean_of_constraint (hbool i (by omega)))
  refine ⟨t, ht, ?_⟩
  rw [← hsum, Bits2Num, Finset.sum_range_succ, htop]
  rw [show (Finset.range 16).sum (fun i => w.out i * 2 ^ i)
      = Bits2Num F 16 w.out from rfl] at hlow ⊢
  rw [← hlow]
  push_cast
  ring

/-- Soundness of the `GreaterEqThan min_value` / `LessEqThan max_value` pair:
if both comparators' constraints hold and both top bits are `1`, the compared
signal is the cast of an integer in `[32768, 65535]`. -/
theorem comparator_pair_range (F : Type) [Field F] (hchar : CharGE F (2 ^ 34))
    (x : F) (ge le : LessThanW F)
    (hge : GreaterEqThan.Constraints F 16 ge x ((min_value : ℕ) : F))
    (hle : LessEqThan.Constraints F 16 le x ((max_value : ℕ) : F))
    (hgeb : ge.n2b.out 16 = 1) (hleb : le.n2b.out 16 = 1) :
    ∃ m : ℕ, 32768 ≤ m ∧ m ≤ 65535 ∧ x = (m : F) := by
  obtain ⟨hga, hgb, hginp, hgn2b⟩ := hge
  obtain ⟨hla, hlb, hlinp, hln2b⟩ := hle
  obtain ⟨t, ht, htin⟩ := top_bit_input F ge.n2b hgn2b hgeb
  obtain ⟨s, hs, hsin⟩ := top_bit_input F le.n2b hln2b hleb
  have hmin : min_value = 32768 := rfl
  have hmax : max_value = 65535 := rfl
  rw [hginp, hga, hgb, hmin] at htin
  rw [hlinp, hla, hlb, hmax] at hsin
  have hx : x = ((t + 32768 : ℕ) : F) := by
    push_cast at htin ⊢
    linear_combination htin
  have hsum : ((t + 32768 + s : ℕ) : F) = ((65535 : ℕ) : F) := by
    push_cast at hsin hx ⊢
    linear_combination - hsin - hx
  have := hchar.castInj (a := t + 32768 + s) (b := 65535)
    (by omega) (by norm_num) hsum
  exact ⟨t + 32768, by omega, by omega, hx⟩

/-! ### Python-side input validation and prime search -/

/-- Embedding of the Python method `_is_prime`: reject `n < 2`, accept `2`,
reject even numbers, then trial-divide by the odd numbers of
`range(3, int(n**0.5) + 1, 2)`.  The Python slice has
`(int(n**0.5) + 1 - 2) / 2` elements starting at `3` with step `2`;
`int(n**0.5)` equals `Nat.sqrt n` throughout the 16-bit range. -/
def is_prime (n : ℕ) : Bool :=
  if n < 2 then false
  else if n = 2 then true
  else if n % 2 = 0 then false
  else (List.range' 3 ((Nat.sqrt n + 1 - 2) / 2) 2).all fun i => n % i != 0

theorem is_prime_even (n : ℕ) (h2 : 2 < n) (he : n % 2 = 0) :
    is_prime n = false := by
  rw [is_prime, if_neg (by omega), if_neg (by omega), if_pos he]

theorem mem_trial_range {n i : ℕ} (h3 : 3 ≤ i) (hodd : i % 2 = 1)
    (hle : i ≤ Nat.sqrt n) :
    i ∈ List.range' 3 ((Nat.sqrt n + 1 - 2) / 2) 2 := by
  rw [List.mem_range']
  exact ⟨(i - 3) / 2, by omega, by omega⟩

theorem trial_range_mem {n i : ℕ}
    (h : i ∈ List.range' 3 ((Nat.sqrt n + 1 - 2) / 2) 2) :
    3 ≤ i ∧ i % 2 = 1 ∧ i ≤ Nat.sqrt n := by
  rw [List.mem_range'] at h
  obtain ⟨k, hk, rfl⟩ := h
  omega

/-- Unfolding of `is_prime` for inputs above `2`. -/
theorem is_prime_eq_true_iff (n : ℕ) (h2 : 2 < n) :
    is_prime n = true ↔
      (n % 2 ≠ 0 ∧ ∀ i, 3 ≤ i → i % 2 = 1 → i ≤ Nat.sqrt n → ¬ i ∣ n) := by
  rw [is_prime, if_neg (by omega), if_neg (by omega)]
  by_cases hm : n % 2 = 0
  · rw [if_pos hm]
    simp [hm]
  · rw [if_neg hm, List.all_eq_true]
    constructor
    · intro h
      refine ⟨hm, fun i h3 hodd hle hdvd => ?_⟩
      have := h i (mem_trial_range h3 hodd hle)
      rw [bne_iff_ne] at this
      exact this ((Nat.dvd_iff_mod_eq_zero).mp hdvd)
    · intro ⟨_, h⟩ i hi
      obtain ⟨h3, hodd, hle⟩ := trial_range_mem hi
      rw [bne_iff_ne]
      intro h0
      exact h i h3 hodd hle ((Nat.dvd_iff_mod_eq_zero).mpr h0)

/-- `is_prime` is sound: an accepted `n > 2` has no nontrivial divisor. -/
theorem is_prime_dvd (n : ℕ) (h2 : 2 < n) (hp : is_prime n = true) :
    ∀ d, d ∣ n → d = 1 ∨ d = n := by
  obtain ⟨hm2, hloop⟩ := (is_prime_eq_true_iff n h2).mp hp
  intro d hd
  by_contra hcon
  push_neg at hcon
  obtain ⟨hd1, hdn⟩ := hcon
  have hn0 : n ≠ 0 := by omega
  have hd0 : d ≠ 0 := by rintro rfl; exact hn0 (Nat.eq_zero_of_zero_dvd hd)
  have hd2 : 2 ≤ d := by omega
  obtain ⟨e, hde⟩ := hd
  have he0 : e ≠ 0 := by rintro rfl; rw [Nat.mul_zero] at hde; omega
  have he1 : e ≠ 1 := by rintro rfl; rw [Nat.mul_one] at hde; omega
  have he2 : 2 ≤ e := by omega
  have hfdvd : min d e ∣ n := by
    rcases min_cases d e with ⟨hmin, _⟩ | ⟨hmin, _⟩
    · rw [hmin]; exact ⟨e, hde⟩
    · rw [hmin]; exact ⟨d, by rw [hde]; ring⟩
  have hf2 : 2 ≤ min d e := le_min hd2 he2
  have hfsqrt : min d e ≤ Nat.sqrt n := by
    apply Nat.le_sqrt.mpr
    calc min d e * min d e ≤ d * e :=
          Nat.mul_le_mul (min_le_left d e) (min_le_right d e)
      _ = n := hde.symm
  rcases Nat.even_or_odd (min d e) with hev | hodd
  · apply hm2
    apply (Nat.dvd_iff_mod_eq_zero).mp
    exact dvd_trans (even_iff_two_dvd.mp hev) hfdvd
  · have hfodd : min d e % 2 = 1 := Nat.odd_iff.mp hodd
    exact hloop (min d e) (by omega) hfodd hfsqrt hfdvd

/-- The distinct rejected-input errors raised by `generate_proof`, each naming
its violated condition (the four `ValueError` messages). -/
inductive InputError : Type
  | bothMustBePrime : InputError
  | mustBeDifferent : InputError
  | pMustBe16Bit : InputError
  | qMustBe16Bit : InputError
deriving DecidableEq

/-- The input-validation stage of `generate_proof`, run before any witness
computation: the four `raise ValueError` checks in source order. -/
def validateInputs (p q : ℕ) : Except InputError Unit :=
  if ¬ (is_prime p = true) ∨ ¬ (is_prime q = true) then
    Except.error InputError.bothMustBePrime
  else if p = q then
    Except.error InputError.mustBeDifferent
  else if ¬ (min_value ≤ p ∧ p ≤ max_value) then
    Except.error InputError.pMustBe16Bit
  else if ¬ (min_value ≤ q ∧ q ≤ max_value) then
    Except.error InputError.qMustBe16Bit
  else
    Except.ok ()

/-- Embedding of the `find_16bit_primes` loop body: while fewer than `count`
primes were found and `n ≤ max_value`, test `n` with `_is_prime` and advance
by `2 if n > 2 else 1`. -/
def find16bitAux (count : ℕ) (primes : List ℕ) (n : ℕ) : List ℕ :=
  if h : primes.length < count ∧ n ≤ max_value then
    find16bitAux count (if is_prime n then primes ++ [n] else primes)
      (n + if 2 < n then 2 else 1)
  else primes
termination_by max_value + 1 - n
decreasing_by
  obtain ⟨-, h2⟩ := h
  split <;> omega

/-- `find_16bit_primes(count)`: the scan starts at `self.min_value`. -/
def find_16bit_primes (count : ℕ) : List ℕ :=
  find16bitAux count [] min_value

/-- Starting the scan at an even number above `2` keeps the accumulator empty:
every visited candidate is even, hence rejected by `_is_prime`. -/
theorem find16bitAux_even_empty (count : ℕ) :
    ∀ fuel n, max_value + 1 - n ≤ fuel → n % 2 = 0 → 2 < n →
      find16bitAux count [] n = [] := by
  have hmax : max_value = 65535 := rfl
  intro fuel
  induction fuel with
  | zero =>
    intro n hf h2 h3
    rw [find16bitAux, dif_neg]
    rw [hmax] at hf ⊢
    rintro ⟨-, hn⟩
    omega
  | succ fuel ih =>
    intro n hf h2 h3
    rw [find16bitAux]
    split
    · rw [is_prime_even n h3 h2]
      simp only [Bool.false_eq_true, if_false, if_pos h3]
      exact ih (n + 2) (by rw [hmax] at hf ⊢; omega) (by omega) (by omega)
    · rfl

theorem smallPrimes_two_le : ∀ ρ ∈ smallPrimes, 2 ≤ ρ := by decide

/-! ### The claims -/

/-- **C1.** For every pair of integers `p, q` with `2^15 ≤ p, q ≤ 2^16 - 1`,
both passing trial division by every prime of the fixed table (all primes up
to 251), and `p ≠ q`, the `RSASetupVerifier` constraint system is satisfied
by the witness produced from `(p, q)` by the gadget witness-computation
rules, and in that witness the public output signal `n` equals the integer
product `p·q`. -/
theorem C1_circuit_satisfiable_product (F : Type) [Field F] [DecidableEq F]
    (hchar : CharGE F (2 ^ 34)) (p q : ℕ)
    (hp1 : 2 ^ 15 ≤ p) (hp2 : p ≤ 2 ^ 16 - 1)
    (hq1 : 2 ^ 15 ≤ q) (hq2 : q ≤ 2 ^ 16 - 1)
    (hpt : ∀ ρ ∈ smallPrimes, ¬ ρ ∣ p) (hqt : ∀ ρ ∈ smallPrimes, ¬ ρ ∣ q)
    (hne : p ≠ q) :
    RSASetupVerifier.Constraints F (RSASetupVerifier.honest F p q) ∧
    RSASetupVerifier.n F (RSASetupVerifier.honest F p q) = ((p * q : ℕ) : F) := by
  have e1 : min_value = 2 ^ 15 := rfl
  have e2 : max_value = 2 ^ 16 - 1 := rfl
  refine rsa_honest_satisfies F hchar p q ?_ ?_ ?_ ?_ hpt hqt hne
  · rw [e1]; exact hp1
  · rw [e2]; exact hp2
  · rw [e1]; exact hq1
  · rw [e2]; exact hq2

/-- Witness for C1 at the concrete inputs `p = 32771`, `q = 32779` over `ℚ`. -/
theorem C1_witness :
    CharGE ℚ (2 ^ 34) ∧
    2 ^ 15 ≤ 32771 ∧ 32771 ≤ 2 ^ 16 - 1 ∧
    2 ^ 15 ≤ 32779 ∧ 32779 ≤ 2 ^ 16 - 1 ∧
    (∀ ρ ∈ smallPrimes, ¬ ρ ∣ 32771) ∧ (∀ ρ ∈ smallPrimes, ¬ ρ ∣ 32779) ∧
    (32771 : ℕ) ≠ 32779 ∧
    (RSASetupVerifier.Constraints ℚ (RSASetupVerifier.honest ℚ 32771 32779) ∧
     RSASetupVerifier.n ℚ (RSASetupVerifier.honest ℚ 32771 32779)
       = ((32771 * 32779 : ℕ) : ℚ)) :=
  ⟨charGE_rat (2 ^ 34), by norm_num, by norm_num, by norm_num, by norm_num,
   by decide, by decide, by norm_num,
   C1_circuit_satisfiable_product ℚ (charGE_rat (2 ^ 34)) 32771 32779
     (by norm_num) (by norm_num) (by norm_num) (by norm_num)
     (by decide) (by decide) (by norm_num)⟩

/-- **C2.** The `ModulusCheck` constraints do not force
`0 ≤ remainder < modulus`: for a value exactly divisible by its modulus there
is an assignment to `quotient`, `remainder`, `inv` satisfying every
`ModulusCheck` constraint with `isNotDivisible = 1` (a non-canonical
quotient/remainder pair defeats the intended non-divisibility semantics). -/
theorem C2_modulus_check_soundness_gap (F : Type) [Field F]
    (hchar : CharGE F 4) :
    ∃ (v m : ℕ) (w : ModulusCheckW F),
      0 < m ∧ m ∣ v ∧
      w.value = (v : F) ∧ w.modulus = (m : F) ∧
      ModulusCheck.Constraints F w ∧
      ModulusCheck.isNotDivisible F w = 1 := by
  have h2 : (2 : F) ≠ 0 := by
    intro h0
    have := hchar 2 (by norm_num) (by exact_mod_cast h0)
    omega
  refine ⟨4, 2, ⟨4, 2, 1, 2, ⟨2, 2⁻¹⟩⟩, by norm_num, by norm_num,
    by norm_num, by norm_num, ⟨?_, rfl, ?_⟩, ?_⟩
  · show (4 : F) = 1 * 2 + 2
    norm_num
  · show (2 : F) * (-(2 : F) * 2⁻¹ + 1) = 0
    rw [neg_mul, mul_inv_cancel₀ h2]
    ring
  · show 1 - (-(2 : F) * 2⁻¹ + 1) = 1
    rw [neg_mul, mul_inv_cancel₀ h2]
    ring

/-- Witness for C2 over `ℚ`. -/
theorem C2_witness :
    CharGE ℚ 4 ∧
    ∃ (v m : ℕ) (w : ModulusCheckW ℚ),
      0 < m ∧ m ∣ v ∧
      w.value = (v : ℚ) ∧ w.modulus = (m : ℚ) ∧
      ModulusCheck.Constraints ℚ w ∧
      ModulusCheck.isNotDivisible ℚ w = 1 :=
  ⟨charGE_rat 4, C2_modulus_check_soundness_gap ℚ (charGE_rat 4)⟩

/-- **C5.** Bit-decomposition round trip: for `x < 2^n` the `Num2Bits`
witness rule satisfies all `Num2Bits` constraints and the `Bits2Num`
weighted sum reconstructs exactly `x`; for `x ≥ 2^n` (below the field
modulus, expressed by `CharGE F x`) no assignment of `n` bits satisfies the
`Num2Bits` constraints. -/
theorem C5_bit_roundtrip (F : Type) [Field F] (n x : ℕ) (hchar : CharGE F x) :
    (x < 2 ^ n →
      Num2Bits.Constraints F n (Num2Bits.honest F x) ∧
      Bits2Num F n (Num2Bits.honest F x).out = (x : F)) ∧
    (2 ^ n ≤ x →
      ¬ ∃ w : Num2BitsW F, w.inp = (x : F) ∧ Num2Bits.Constraints F n w) := by
  constructor
  · intro hx
    refine ⟨num2bits_honest_satisfies F n x hx, ?_⟩
    rw [honest_bits_sum, Nat.mod_eq_of_lt hx]
  · rintro hx ⟨w, hinp, hbool, hsum⟩
    obtain ⟨t, ht, hts⟩ := boolean_sum_lt F n w.out
      (fun i hi => boolean_of_constraint (hbool i hi))
    have hteq : t = x := by
      refine hchar.castInj (by omega) (le_refl x) ?_
      rw [hts]
      rw [show (Finset.range n).sum (fun i => w.out i * 2 ^ i)
          = Bits2Num F n w.out from rfl, hsum, hinp]
    omega

/-- Witness for C5 at `n = 4`, `x = 11` over `ℚ`. -/
theorem C5_witness :
    CharGE ℚ 11 ∧
    ((11 < 2 ^ 4 →
      Num2Bits.Constraints ℚ 4 (Num2Bits.honest ℚ 11) ∧
      Bits2Num ℚ 4 (Num2Bits.honest ℚ 11).out = (11 : ℚ)) ∧
     (2 ^ 4 ≤ 11 →
      ¬ ∃ w : Num2BitsW ℚ, w.inp = ((11 : ℕ) : ℚ) ∧
        Num2Bits.Constraints ℚ 4 w)) :=
  ⟨charGE_rat 11, by
    have h := C5_bit_roundtrip ℚ 4 11 (charGE_rat 11)
    constructor
    · intro h4
      refine ⟨(h.1 h4).1, ?_⟩
      rw [(h.1 h4).2]
      norm_num
    · exact_mod_cast h.2⟩

/-- **C6.** Comparator trichotomy: for all `a, b` in `[0, 2^n)`, under the
honest witness computation exactly one of `LessThan(n)(a,b) = 1`,
`IsEqual(a,b) = 1` and `LessThan(n)(b,a) = 1` holds. -/
theorem C6_comparator_trichotomy (F : Type) [Field F] [DecidableEq F]
    (n a b : ℕ) (hchar : CharGE F (2 ^ n)) (ha : a < 2 ^ n) (hb : b < 2 ^ n) :
    (LessThan.out F n (LessThan.honest F n a b) = 1 ∧
     IsEqual.out F (IsEqual.honest F a b) = 0 ∧
     LessThan.out F n (LessThan.honest F n b a) = 0) ∨
    (LessThan.out F n (LessThan.honest F n a b) = 0 ∧
     IsEqual.out F (IsEqual.honest F a b) = 1 ∧
     LessThan.out F n (LessThan.honest F n b a) = 0) ∨
    (LessThan.out F n (LessThan.honest F n a b) = 0 ∧
     IsEqual.out F (IsEqual.honest F a b) = 0 ∧
     LessThan.out F n (LessThan.honest F n b a) = 1) := by
  rw [lessThan_honest_out F n a b ha hb, lessThan_honest_out F n b a hb ha,
    isEqual_honest_out F (2 ^ n) a b hchar (by omega) (by omega)]
  rcases lt_trichotomy a b with h | h | h
  · exact Or.inl ⟨if_pos h, by rw [if_neg (by omega)], by rw [if_neg (by omega)]⟩
  · exact Or.inr (Or.inl ⟨by rw [if_neg (by omega)], if_pos h,
      by rw [if_neg (by omega)]⟩)
  · exact Or.inr (Or.inr ⟨by rw [if_neg (by omega)], by rw [if_neg (by omega)],
      if_pos h⟩)

/-- Witness for C6 at `n = 8`, `a = 3`, `b = 5` over `ℚ`. -/
theorem C6_witness :
    CharGE ℚ (2 ^ 8) ∧ 3 < 2 ^ 8 ∧ 5 < 2 ^ 8 ∧
    ((LessThan.out ℚ 8 (LessThan.honest ℚ 8 3 5) = 1 ∧
      IsEqual.out ℚ (IsEqual.honest ℚ 3 5) = 0 ∧
      LessThan.out ℚ 8 (LessThan.honest ℚ 8 5 3) = 0) ∨
     (LessThan.out ℚ 8 (LessThan.honest ℚ 8 3 5) = 0 ∧
      IsEqual.out ℚ (IsEqual.honest ℚ 3 5) = 1 ∧
      LessThan.out ℚ 8 (LessThan.honest ℚ 8 5 3) = 0) ∨
     (LessThan.out ℚ 8 (LessThan.honest ℚ 8 3 5) = 0 ∧
      IsEqual.out ℚ (IsEqual.honest ℚ 3 5) = 0 ∧
      LessThan.out ℚ 8 (LessThan.honest ℚ 8 5 3) = 1)) :=
  ⟨charGE_rat (2 ^ 8), by norm_num, by norm_num,
   C6_comparator_trichotomy ℚ 8 3 5 (charGE_rat (2 ^ 8)) (by norm_num)
     (by norm_num)⟩

/-- **C3.** The circuit range-checks `p` and `q` into
`[2^(bitLength-1), 2^bitLength - 1]` through the two width-16 comparators
(each internally bit-decomposing its combined operand at width 17):
consequently, in every assignment satisfying all of the circuit's
constraints, the signals `p` and `q` are casts of integers in
`[32768, 65535]`. -/
theorem C3_range_soundness (F : Type) [Field F] (hchar : CharGE F (2 ^ 34))
    (w : RSASetupVerifierW F) (hw : RSASetupVerifier.Constraints F w) :
    (∃ m : ℕ, 32768 ≤ m ∧ m ≤ 65535 ∧ w.p = (m : F)) ∧
    (∃ m : ℕ, 32768 ≤ m ∧ m ≤ 65535 ∧ w.q = (m : F)) := by
  obtain ⟨hgeP, hleP, hgeQ, hleQ, heq, hpP, hpQ, hvalid⟩ := hw
  have hvP : RSASetupVerifier.validP F w
      = w.geP.n2b.out 16 * w.leP.n2b.out 16 := by
    rw [RSASetupVerifier.validP, GreaterEqThan.out, LessEqThan.out,
      LessThan.out, LessThan.out]
    ring
  have hvQ : RSASetupVerifier.validQ F w
      = w.geQ.n2b.out 16 * w.leQ.n2b.out 16 := by
    rw [RSASetupVerifier.validQ, GreaterEqThan.out, LessEqThan.out,
      LessThan.out, LessThan.out]
    ring
  rw [RSASetupVerifier.valid, hvP, hvQ] at hvalid
  have hbit : ∀ u : LessThanW F, LessThan.Constraints F 16 u →
      u.n2b.out 16 = 0 ∨ u.n2b.out 16 = 1 :=
    fun u hu => boolean_of_constraint (hu.2.1 16 (by omega))
  have hgPb : w.geP.n2b.out 16 = 1 := by
    rcases hbit w.geP hgeP.2.2 with h0 | h1
    · rw [h0] at hvalid; simp at hvalid
    · exact h1
  have hlPb : w.leP.n2b.out 16 = 1 := by
    rcases hbit w.leP hleP.2.2 with h0 | h1
    · rw [h0] at hvalid; simp at hvalid
    · exact h1
  have hgQb : w.geQ.n2b.out 16 = 1 := by
    rcases hbit w.geQ hgeQ.2.2 with h0 | h1
    · rw [h0] at hvalid; simp at hvalid
    · exact h1
  have hlQb : w.leQ.n2b.out 16 = 1 := by
    rcases hbit w.leQ hleQ.2.2 with h0 | h1
    · rw [h0] at hvalid; simp at hvalid
    · exact h1
  exact ⟨comparator_pair_range F hchar w.p w.geP w.leP hgeP hleP hgPb hlPb,
    comparator_pair_range F hchar w.q w.geQ w.leQ hgeQ hleQ hgQb hlQb⟩

/-- Witness for C3: the honest witness at `(32771, 32779)` over `ℚ` satisfies
the constraints, and the conclusion holds for it. -/
theorem C3_witness :
    CharGE ℚ (2 ^ 34) ∧
    RSASetupVerifier.Constraints ℚ (RSASetupVerifier.honest ℚ 32771 32779) ∧
    ((∃ m : ℕ, 32768 ≤ m ∧ m ≤ 65535 ∧
        (RSASetupVerifier.honest ℚ 32771 32779).p = (m : ℚ)) ∧
     (∃ m : ℕ, 32768 ≤ m ∧ m ≤ 65535 ∧
        (RSASetupVerifier.honest ℚ 32771 32779).q = (m : ℚ))) := by
  have hc : CharGE ℚ (2 ^ 34) := charGE_rat (2 ^ 34)
  have hw := (rsa_honest_satisfies ℚ hc 32771 32779
    (by norm_num [min_value, bitLength]) (by norm_num [max_value, bitLength])
    (by norm_num [min_value, bitLength]) (by norm_num [max_value, bitLength])
    (by decide) (by decide) (by norm_num)).1
  exact ⟨hc, hw, C3_range_soundness ℚ hc _ hw⟩

/-- **C4 (counterexample).** The input `2` is a prime in `[2, 65535]` with
square root at most `251`, yet the honest `SimplePrimalityTest` outputs
`isPrime = 0` for it (the table contains `2`, and `2 ∣ 2`), refuting the
claim that the gadget outputs `1` on every such prime. -/
theorem C4_counterexample :
    Nat.Prime 2 ∧ 2 ≤ 65535 ∧ Nat.sqrt 2 ≤ 251 ∧
    SimplePrimalityTest.isPrime ℚ (SimplePrimalityTest.honest ℚ 2) = 0 ∧
    SimplePrimalityTest.isPrime ℚ (SimplePrimalityTest.honest ℚ 2) ≠ 1 := by
  have hsqrt : Nat.sqrt 2 ≤ 251 := by
    by_contra hcon
    push_neg at hcon
    have := Nat.le_sqrt.mp (show 252 ≤ Nat.sqrt 2 by omega)
    omega
  have h := SimplePrimalityTest.honest_isPrime ℚ 2 (charGE_rat 251)
  rw [if_neg] at h
  · exact ⟨Nat.prime_two, by norm_num, hsqrt, h, by rw [h]; norm_num⟩
  · push_neg
    exact ⟨2, by decide, by norm_num⟩

/-- **C4 (amended).** Under the honest witness-computation rules, the
`SimplePrimalityTest` gadget outputs `isPrime = 1` for every prime in
`(251, 65535]` (a prime at most `251` is itself a table entry and is
rejected), and outputs `isPrime = 0` for every composite input having a
prime factor at most `251`. -/
theorem C4_amended_primality_gadget (F : Type) [Field F] [DecidableEq F]
    (hchar : CharGE F 251) (p c : ℕ)
    (hp : Nat.Prime p) (hp1 : 251 < p) (hp2 : p ≤ 65535)
    (_hc2 : 2 ≤ c) (_hcnp : ¬ Nat.Prime c)
    (hfac : ∃ ρ, Nat.Prime ρ ∧ ρ ≤ 251 ∧ ρ ∣ c) :
    SimplePrimalityTest.isPrime F (SimplePrimalityTest.honest F p) = 1 ∧
    SimplePrimalityTest.isPrime F (SimplePrimalityTest.honest F c) = 0 := by
  constructor
  · rw [SimplePrimalityTest.honest_isPrime F p hchar, if_pos]
    intro ρ hmem hdvd
    rcases hp.eq_one_or_self_of_dvd ρ hdvd with h1 | h1
    · have := smallPrimes_two_le ρ hmem
      omega
    · have := smallPrimes_le ρ hmem
      omega
  · rw [SimplePrimalityTest.honest_isPrime F c hchar, if_neg]
    push_neg
    obtain ⟨ρ, hρp, hρle, hρdvd⟩ := hfac
    have hρ2 : 2 ≤ ρ := hρp.two_le
    obtain ⟨ρ', hmem', hdvd'⟩ := smallPrimes_cover ρ (by omega) hρ2
    rcases hρp.eq_one_or_self_of_dvd ρ' hdvd' with h1 | h1
    · have := smallPrimes_two_le ρ' hmem'
      omega
    · refine ⟨ρ, ?_, hρdvd⟩
      rw [← h1]
      exact hmem'

/-- Witness for the amended C4 at `p = 257` (prime above the table) and
`c = 6` (composite with factor `2 ≤ 251`) over `ℚ`. -/
theorem C4_witness :
    CharGE ℚ 251 ∧ Nat.Prime 257 ∧ 251 < 257 ∧ 257 ≤ 65535 ∧
    2 ≤ 6 ∧ ¬ Nat.Prime 6 ∧ (∃ ρ, Nat.Prime ρ ∧ ρ ≤ 251 ∧ ρ ∣ 6) ∧
    (SimplePrimalityTest.isPrime ℚ (SimplePrimalityTest.honest ℚ 257) = 1 ∧
     SimplePrimalityTest.isPrime ℚ (SimplePrimalityTest.honest ℚ 6) = 0) :=
  ⟨charGE_rat 251, by norm_num, by norm_num, by norm_num, by norm_num,
   by norm_num, ⟨2, Nat.prime_two, by norm_num, by norm_num⟩,
   C4_amended_primality_gadget ℚ (charGE_rat 251) 257 6 (by norm_num)
     (by norm_num) (by norm_num) (by norm_num) (by norm_num)
     ⟨2, Nat.prime_two, by norm_num, by norm_num⟩⟩

/-- **C7.** On the intended operand range `[2^15, 2^16 - 1]`, the circuit's
trial-division policy coincides with the Python validator `_is_prime`:
`m` has no factor in the 54-prime table iff `_is_prime m` returns `True`. -/
theorem C7_trial_division_refines_is_prime (m : ℕ)
    (h1 : 2 ^ 15 ≤ m) (h2 : m ≤ 2 ^ 16 - 1) :
    (∀ ρ ∈ smallPrimes, ¬ ρ ∣ m) ↔ is_prime m = true := by
  have hm2 : 2 < m := by omega
  have hsqrt : Nat.sqrt m ≤ 255 := by
    by_contra hcon
    push_neg at hcon
    have := Nat.le_sqrt.mp (show 256 ≤ Nat.sqrt m by omega)
    omega
  constructor
  · intro htf
    rw [is_prime_eq_true_iff m hm2]
    have h2m : ¬ (2 ∣ m) := htf 2 (by decide)
    refine ⟨fun h0 => h2m ((Nat.dvd_iff_mod_eq_zero).mpr h0), ?_⟩
    intro i h3 hodd hle hdvd
    obtain ⟨ρ, hmem, hρi⟩ := smallPrimes_cover i (by omega) (by omega)
    exact htf ρ hmem (dvd_trans hρi hdvd)
  · intro hpr ρ hmem hdvd
    rcases is_prime_dvd m hm2 hpr ρ hdvd with h | h
    · have := smallPrimes_two_le ρ hmem
      omega
    · have := smallPrimes_le ρ hmem
      omega

/-- Witness for C7 at `m = 32771`. -/
theorem C7_witness :
    2 ^ 15 ≤ 32771 ∧ 32771 ≤ 2 ^ 16 - 1 ∧
    ((∀ ρ ∈ smallPrimes, ¬ ρ ∣ 32771) ↔ is_prime 32771 = true) :=
  ⟨by norm_num, by norm_num,
   C7_trial_division_refines_is_prime 32771 (by norm_num) (by norm_num)⟩

/-- **C8.** `generate_proof` raises a rejected-input error (a `ValueError`
naming the violated condition) before any witness computation is attempted,
exactly when `p` or `q` is non-prime under the validation test, or `p = q`,
or `p` or `q` lies outside `[2^15, 2^16 - 1]`; in particular `p = 32770`
(with any `q`, prime or not) is rejected at this validation stage. -/
theorem C8_generate_proof_validation (p q : ℕ) :
    ((∃ e, validateInputs p q = Except.error e) ↔
      (¬ is_prime p = true ∨ ¬ is_prime q = true ∨ p = q ∨
        p < 2 ^ 15 ∨ 2 ^ 16 - 1 < p ∨ q < 2 ^ 15 ∨ 2 ^ 16 - 1 < q)) ∧
    validateInputs 32770 q = Except.error InputError.bothMustBePrime := by
  have e1 : min_value = 2 ^ 15 := rfl
  have e2 : max_value = 2 ^ 16 - 1 := rfl
  constructor
  · rw [validateInputs, e1, e2]
    by_cases h1 : ¬ (is_prime p = true) ∨ ¬ (is_prime q = true)
    · rw [if_pos h1]
      exact iff_of_true ⟨_, rfl⟩ (by tauto)
    · rw [if_neg h1]
      push_neg at h1
      by_cases h2 : p = q
      · rw [if_pos h2]
        exact iff_of_true ⟨_, rfl⟩ (by tauto)
      · rw [if_neg h2]
        by_cases h3 : ¬ (2 ^ 15 ≤ p ∧ p ≤ 2 ^ 16 - 1)
        · rw [if_pos h3]
          have hd : p < 2 ^ 15 ∨ 2 ^ 16 - 1 < p := by omega
          exact iff_of_true ⟨_, rfl⟩ (by tauto)
        · rw [if_neg h3]
          by_cases h4 : ¬ (2 ^ 15 ≤ q ∧ q ≤ 2 ^ 16 - 1)
          · rw [if_pos h4]
            have hd : q < 2 ^ 15 ∨ 2 ^ 16 - 1 < q := by omega
            exact iff_of_true ⟨_, rfl⟩ (by tauto)
          · rw [if_neg h4]
            push_neg at h3 h4
            refine iff_of_false (by simp) ?_
            rintro (h | h | h | h | h | h | h)
            · exact h h1.1
            · exact h h1.2
            · exact h2 h
            · omega
            · omega
            · omega
            · omega
  · rw [validateInputs, if_pos]
    left
    rw [is_prime_even 32770 (by norm_num) (by norm_num)]
    simp

/-- **C9 (counterexample).** At `p = 32771`, `q = 32779` the honest public
output is `32771 · 32779 = 1074200609`, not `1074004409` as the claim
states. -/
theorem C9_counterexample :
    (32771 : ℕ) * 32779 = 1074200609 ∧
    RSASetupVerifier.n ℚ (RSASetupVerifier.honest ℚ 32771 32779)
      ≠ ((1074004409 : ℕ) : ℚ) := by
  constructor
  · norm_num
  · show ((32771 : ℕ) : ℚ) * ((32779 : ℕ) : ℚ) ≠ ((1074004409 : ℕ) : ℚ)
    norm_num

/-- **C9 (amended).** For the concrete inputs `p = 32771`, `q = 32779` the
`RSASetupVerifier` circuit is satisfied by the honest witness and the public
output signal equals `n = 1074200609`. -/
theorem C9_amended_concrete_output (F : Type) [Field F] [DecidableEq F]
    (hchar : CharGE F (2 ^ 34)) :
    RSASetupVerifier.Constraints F (RSASetupVerifier.honest F 32771 32779) ∧
    RSASetupVerifier.n F (RSASetupVerifier.honest F 32771 32779)
      = ((1074200609 : ℕ) : F) := by
  have h := rsa_honest_satisfies F hchar 32771 32779
    (by norm_num [min_value, bitLength]) (by norm_num [max_value, bitLength])
    (by norm_num [min_value, bitLength]) (by norm_num [max_value, bitLength])
    (by decide) (by decide) (by norm_num)
  refine ⟨h.1, ?_⟩
  rw [h.2]

/-- Witness for the amended C9 over `ℚ`. -/
theorem C9_witness :
    CharGE ℚ (2 ^ 34) ∧
    (RSASetupVerifier.Constraints ℚ (RSASetupVerifier.honest ℚ 32771 32779) ∧
     RSASetupVerifier.n ℚ (RSASetupVerifier.honest ℚ 32771 32779)
       = ((1074200609 : ℕ) : ℚ)) :=
  ⟨charGE_rat (2 ^ 34), C9_amended_concrete_output ℚ (charGE_rat (2 ^ 34))⟩

/-- **C10.** With the default configuration (`bit_length = 16`, so the scan
starts at the even number `32768` and always advances by `2`),
`find_16bit_primes count` returns the empty list for every `count ≥ 1`:
only even numbers are ever tested, and none passes `_is_prime`. -/
theorem C10_find_16bit_primes_empty (count : ℕ) (_hc : 1 ≤ count) :
    find_16bit_primes count = [] := by
  have e1 : min_value = 32768 := rfl
  have e2 : max_value = 65535 := rfl
  rw [find_16bit_primes, e1]
  exact find16bitAux_even_empty count 65536 32768 (by rw [e2]; norm_num)
    (by norm_num) (by norm_num)

/-- Witness for C10 at `count = 1`. -/
theorem C10_witness : 1 ≤ 1 ∧ find_16bit_primes 1 = [] :=
  ⟨le_refl 1, C10_find_16bit_primes_empty 1 (le_refl 1)⟩
